import Mathlib

/-!
Verification of the two engines in src/src/lwgrp_ring_ops.c:
the bin-split scan (lwgrp_ring_split_bin) and the ring all-to-all
(lwgrp_ring_alltoallv_linear).

Modelling conventions.
The transport is MPI; every collective round ends in a wait-all, and the
communication partners of each round are determined, so the whole
multi-process execution is modelled as a synchronous round function on a
global state indexed by ring position.  Positions of the N members of the
input ring are elements of ZMod N (the input is a ring: the left
neighbour of position 0 is position N-1).  Transport ranks are given by
an arbitrary function tr from positions; messages are addressed by
transport rank in the C code, and since the ranks of distinct processes
are distinct, addressing by transport rank is addressing by position, so
the model routes by position and applies tr only where a rank value is
stored into a buffer or a descriptor field.  MPI_PROC_NULL is modelled
by Option.none.  C int values that hold counts are modelled as Int.
The scan buffers hold one (count, closest) cell per bin; the model keeps
them as functions from the bin number, which agrees with the C arrays on
every bin below num_bins, and the code never touches a cell at or above
num_bins.
-/

namespace Lwgrp

/-- The lwgrp_ring descriptor (struct lwgrp_ring).  The opaque MPI
communicator field is omitted; both engines only thread it through. -/
structure LwgrpRing where
  comm_rank : Option Int
  comm_left : Option Int
  comm_right : Option Int
  group_rank : Int
  group_size : Int
deriving DecidableEq

/-- Result values of the public calls.  The spec (section 7) names three
error kinds; the C source under src/ returns only LWGRP_SUCCESS. -/
inductive LwgrpResult where
  | success
  | invalidArg
  | outOfMemory
deriving DecidableEq

/-- Modelled from the spec: lwgrp_ring_set_null is not under src/ (only
its caller is).  Section 3.1 of the spec: a null chain is the
distinguished empty value with chain size 0, both neighbours NONE, and
chain rank unspecified; we fix the unspecified rank field to 0 and leave
the unspecified transport rank field NONE. -/
def lwgrp_ring_set_null : LwgrpRing :=
  { comm_rank := none
    comm_left := none
    comm_right := none
    group_rank := 0
    group_size := 0 }

/-- Per-process state of the bin-split scan loop (lwgrp_ring_split_bin,
lines 61-159).  cntR and cloR are the count and closest slots of
send_right_bins, cntL and cloL those of send_left_bins, indexed by bin;
myL and myR are the local variables my_left and my_right; lpos and rpos
are the local variables left_rank and right_rank, kept as positions. -/
structure ProcState (N : Nat) where
  cntR : Nat → Int
  cloR : Nat → Option (ZMod N)
  cntL : Nat → Int
  cloL : Nat → Option (ZMod N)
  myL : Option (ZMod N)
  myR : Option (ZMod N)
  lpos : ZMod N
  rpos : ZMod N

/-- Initial scan state of the process at position i with bin assignment
b (lines 67-95): all cells hold count 0 and closest NONE except the cell
of the own bin, which holds count 1 and the own rank; my_left and
my_right start at NONE; left_rank and right_rank are the ring
neighbours. -/
def initState (N : Nat) (b : ZMod N → Int) (i : ZMod N) : ProcState N :=
  { cntR := fun c => if b i = (c : Int) then 1 else 0
    cloR := fun c => if b i = (c : Int) then some i else none
    cntL := fun c => if b i = (c : Int) then 1 else 0
    cloL := fun c => if b i = (c : Int) then some i else none
    myL := none
    myR := none
    lpos := i - 1
    rpos := i + 1 }

/-- One round of the double scan at hop distance d (lines 97-159).  The
message received from the left is the right-going send buffer of the
process at position lpos, whose trailing slot carries the sender
left_rank; symmetrically from the right.  After wait-all: the my_left
and my_right snapshots are filled from the received closest cell of the
own bin if still NONE; counts are merged under the wrap guards
rank - dist >= 0 and rank + dist < ranks, closest slots are merged only
if still NONE; finally the neighbour pointers advance by the trailing
slots.  The group rank of the process at position i in the input ring is
i.val. -/
def stepRound (N : Nat) (b : ZMod N → Int) (d : Nat)
    (st : ZMod N → ProcState N) : ZMod N → ProcState N := fun i =>
  let s := st i
  let ml := st s.lpos
  let mr := st s.rpos
  { cntR := fun c => if d ≤ i.val then s.cntR c + ml.cntR c else s.cntR c
    cloR := fun c => (s.cloR c).orElse (fun _ => ml.cloR c)
    cntL := fun c => if i.val + d < N then s.cntL c + mr.cntL c else s.cntL c
    cloL := fun c => (s.cloL c).orElse (fun _ => mr.cloL c)
    myL := if 0 ≤ b i then s.myL.orElse (fun _ => ml.cloR (b i).toNat) else s.myL
    myR := if 0 ≤ b i then s.myR.orElse (fun _ => mr.cloL (b i).toNat) else s.myR
    lpos := ml.lpos
    rpos := mr.rpos }

/-- The scan while loop (line 97: while dist < ranks, doubling dist),
returning the final state together with the number of executed rounds.
The fuel argument only bounds the recursion; it is chosen large enough
that the loop condition alone decides termination. -/
def scanGo (N : Nat) (b : ZMod N → Int) :
    Nat → Nat → (ZMod N → ProcState N) → ((ZMod N → ProcState N) × Nat)
  | 0, _, st => (st, 0)
  | fuel + 1, d, st =>
    if d < N then
      let r := scanGo N b fuel (2 * d) (stepRound N b d st)
      (r.1, r.2 + 1)
    else (st, 0)

/-- The state after the first k rounds of the scan (round j runs at hop
distance 2 ^ j). -/
def scanK (N : Nat) (b : ZMod N → Int) : Nat → (ZMod N → ProcState N)
  | 0 => initState N b
  | k + 1 => stepRound N b (2 ^ k) (scanK N b k)

/-- Full scan of lwgrp_ring_split_bin: dist starts at 1 and the loop
runs while dist < ranks. -/
def splitScanPair (N : Nat) (b : ZMod N → Int) :
    ((ZMod N → ProcState N) × Nat) :=
  scanGo N b (N + 1) 1 (initState N b)

/-- Final scan state. -/
def splitScan (N : Nat) (b : ZMod N → Int) : ZMod N → ProcState N :=
  (splitScanPair N b).1

/-- Number of rounds executed by the scan loop. -/
def splitRounds (N : Nat) (b : ZMod N → Int) : Nat :=
  (splitScanPair N b).2

/-- Output descriptor of lwgrp_ring_split_bin (lines 161-184) for the
process at position i of an input ring of size N with bin assignment b
and transport ranks tr.  If the input ring is a singleton, my_left and
my_right are overwritten with the own rank; a process with a negative
bin receives the null ring; otherwise the counts of the own bin give
count_left and count_right, the group rank and size. -/
def lwgrp_ring_split_bin (N : Nat) (b : ZMod N → Int) (tr : ZMod N → Int)
    (i : ZMod N) : LwgrpRing :=
  let F := splitScan N b
  let myL : Option (ZMod N) := if N = 1 then some i else (F i).myL
  let myR : Option (ZMod N) := if N = 1 then some i else (F i).myR
  if 0 ≤ b i then
    let count_left : Int := (F i).cntR (b i).toNat - 1
    let count_right : Int := (F i).cntL (b i).toNat - 1
    { comm_rank := some (tr i)
      comm_left := Option.map tr myL
      comm_right := Option.map tr myR
      group_rank := count_left
      group_size := count_left + count_right + 1 }
  else lwgrp_ring_set_null

/-- Result value of lwgrp_ring_split_bin.  The source returns
LWGRP_SUCCESS on every path (line 189); the two TODO: fail markers at
lines 46-48 and 57-59 are empty, so neither my_bin >= num_bins nor
num_bins < 1 nor allocation failure produces an error result. -/
def lwgrp_ring_split_bin_ret (num_bins my_bin : Int) : LwgrpResult :=
  LwgrpResult.success

/-- Number of processes at positions below m that declare bin v. -/
def sameBinBelow (N : Nat) (b : ZMod N → Int) (v : Int) : Nat → Int
  | 0 => 0
  | m + 1 => sameBinBelow N b v m + (if b ((m : Nat) : ZMod N) = v then 1 else 0)

/-- Window count used to characterise the right-going counts: the number
of offsets t < len with t ≤ hi such that the process at position hi - t
declares bin v.  This is the count of bin-v processes in the window of
len positions ending at position hi, clipped at the head of the ring. -/
def cntWinL (N : Nat) (b : ZMod N → Int) (v : Int) (hi : Nat) : Nat → Int
  | 0 => 0
  | len + 1 =>
    cntWinL N b v hi len +
      (if len ≤ hi ∧ b (((hi - len : Nat)) : ZMod N) = v then 1 else 0)

/-- Window count used to characterise the left-going counts: the number
of offsets t < len with lo + t < N such that the process at position
lo + t declares bin v. -/
def cntWinR (N : Nat) (b : ZMod N → Int) (v : Int) (lo : Nat) : Nat → Int
  | 0 => 0
  | len + 1 =>
    cntWinR N b v lo len +
      (if lo + len < N ∧ b (((lo + len : Nat)) : ZMod N) = v then 1 else 0)

/-- First position i - t with t scanning lo, lo+1, ..., lo+len-1 whose
bin is v, walking left around the ring from i. -/
def findWinL (N : Nat) (b : ZMod N → Int) (v : Int) (i : ZMod N) :
    Nat → Nat → Option (ZMod N)
  | _, 0 => none
  | lo, len + 1 =>
    if b (i - ((lo : Nat) : ZMod N)) = v then some (i - ((lo : Nat) : ZMod N))
    else findWinL N b v i (lo + 1) len

/-- First position i + t with t scanning lo, lo+1, ..., lo+len-1 whose
bin is v, walking right around the ring from i. -/
def findWinR (N : Nat) (b : ZMod N → Int) (v : Int) (i : ZMod N) :
    Nat → Nat → Option (ZMod N)
  | _, 0 => none
  | lo, len + 1 =>
    if b (i + ((lo : Nat) : ZMod N)) = v then some (i + ((lo : Nat) : ZMod N))
    else findWinR N b v i (lo + 1) len

/-- Per-process state of the lwgrp_ring_alltoallv_linear loop (lines
212-245): the local variables src and dst (kept as positions, the
transport context being the input ring with transport rank equal to
position), and the receive buffer, a flat integer array indexed by
element offset. -/
structure A2AProc (N : Nat) where
  src : ZMod N
  dst : ZMod N
  recvbuf : Nat → Int

/-- One round of the alltoallv loop (lines 219-245).  The process at
position p receives into recvbuf at offset recvdispls[src] the
recvcounts[src] elements that its current src sent from
sendbuf[senddispls[p]] (the sender addressed them to its own current
dst, which is p), and learns the next src and dst from the address
messages: the message received from src carries the src of the sender,
the message received from dst carries the dst of that sender.  sb is
the per-process send buffer, sc, sd, rc, rd the per-process sendcounts,
senddispls, recvcounts, recvdispls arrays, all indexed by transport
rank; a well-formed call has rc p q = sc q p. -/
def a2aStep (N : Nat) (sb : ZMod N → Nat → Int)
    (sc sd rc rd : ZMod N → ZMod N → Nat)
    (st : ZMod N → A2AProc N) : ZMod N → A2AProc N := fun p =>
  let s := (st p).src
  { src := (st s).src
    dst := (st (st p).dst).dst
    recvbuf := fun ofs =>
      if rd p s ≤ ofs ∧ ofs < rd p s + rc p s then
        sb s (sd s p + (ofs - rd p s))
      else (st p).recvbuf ofs }

/-- The alltoallv while loop (line 219: while dist < ranks, where ranks
is read from the group descriptor), returning the final state and the
number of executed rounds.  The fuel argument only bounds recursion. -/
def a2aGo (N : Nat) (sb : ZMod N → Nat → Int)
    (sc sd rc rd : ZMod N → ZMod N → Nat) (ranks : Int) :
    Nat → Int → (ZMod N → A2AProc N) → ((ZMod N → A2AProc N) × Nat)
  | 0, _, st => (st, 0)
  | fuel + 1, dist, st =>
    if dist < ranks then
      let r := a2aGo N sb sc sd rc rd ranks fuel (dist + 1)
        (a2aStep N sb sc sd rc rd st)
      (r.1, r.2 + 1)
    else (st, 0)

/-- Initial alltoallv state: dist = 0, src = comm_left, dst =
comm_right, which in the input ring are the positions one step away. -/
def a2aInit (N : Nat) (rb : ZMod N → Nat → Int) : ZMod N → A2AProc N :=
  fun p => { src := p - 1, dst := p + 1, recvbuf := rb p }

/-- Run of lwgrp_ring_alltoallv_linear over a group whose descriptor
carries group_size = ranks, from an arbitrary initial state. -/
def a2aRun (N : Nat) (sb : ZMod N → Nat → Int)
    (sc sd rc rd : ZMod N → ZMod N → Nat) (ranks : Int)
    (st : ZMod N → A2AProc N) : ((ZMod N → A2AProc N) × Nat) :=
  a2aGo N sb sc sd rc rd ranks (ranks.toNat + 1) 0 st

/-- Result value of lwgrp_ring_alltoallv_linear: the source returns 0
on its only path (line 247). -/
def lwgrp_ring_alltoallv_linear_ret : Int := 0

/-! ### Characterisation of the scan loop -/

lemma scanGo_of_le {N : Nat} (b : ZMod N → Int) (fuel d : Nat)
    (st : ZMod N → ProcState N) (h : N ≤ d) :
    scanGo N b fuel d st = (st, 0) := by
  cases fuel with
  | zero => rfl
  | succ fuel => simp [scanGo, Nat.not_lt.mpr h]

lemma scanGo_count {N : Nat} (b : ZMod N → Int) :
    ∀ (fuel j : Nat) (st : ZMod N → ProcState N), N ≤ 2 ^ (j + fuel) →
      (scanGo N b fuel (2 ^ j) st).2 = Nat.clog 2 N - j := by
  intro fuel
  induction fuel with
  | zero =>
    intro j st h
    have hc : Nat.clog 2 N ≤ j := (Nat.le_pow_iff_clog_le one_lt_two).mp h
    simp [scanGo, Nat.sub_eq_zero_of_le hc]
  | succ fuel ih =>
    intro j st h
    by_cases hd : 2 ^ j < N
    · have hpow : 2 * 2 ^ j = 2 ^ (j + 1) := by ring
      have hfuel : N ≤ 2 ^ (j + 1 + fuel) := by
        have : j + 1 + fuel = j + (fuel + 1) := by omega
        rw [this]; exact h
      have hlt : j < Nat.clog 2 N := by
        by_contra hle
        exact absurd ((Nat.le_pow_iff_clog_le one_lt_two).mpr (Nat.le_of_not_lt hle))
          (Nat.not_le_of_lt hd)
      have hih := ih (j + 1) (stepRound N b (2 ^ j) st) hfuel
      simp only [scanGo, if_pos hd, hpow, hih]
      omega
    · have hc : Nat.clog 2 N ≤ j :=
        (Nat.le_pow_iff_clog_le one_lt_two).mp (Nat.le_of_not_lt hd)
      simp [scanGo, hd, Nat.sub_eq_zero_of_le hc]

lemma scanGo_state {N : Nat} (b : ZMod N → Int) :
    ∀ (fuel j : Nat), N ≤ 2 ^ (j + fuel) →
      (scanGo N b fuel (2 ^ j) (scanK N b j)).1 =
        scanK N b (max j (Nat.clog 2 N)) := by
  intro fuel
  induction fuel with
  | zero =>
    intro j h
    have hc : Nat.clog 2 N ≤ j := (Nat.le_pow_iff_clog_le one_lt_two).mp h
    simp [scanGo, Nat.max_eq_left hc]
  | succ fuel ih =>
    intro j h
    by_cases hd : 2 ^ j < N
    · have hpow : 2 * 2 ^ j = 2 ^ (j + 1) := by ring
      have hfuel : N ≤ 2 ^ (j + 1 + fuel) := by
        have : j + 1 + fuel = j + (fuel + 1) := by omega
        rw [this]; exact h
      have hlt : j < Nat.clog 2 N := by
        by_contra hle
        exact absurd ((Nat.le_pow_iff_clog_le one_lt_two).mpr (Nat.le_of_not_lt hle))
          (Nat.not_le_of_lt hd)
      have hstep : stepRound N b (2 ^ j) (scanK N b j) = scanK N b (j + 1) := rfl
      simp only [scanGo, if_pos hd, hpow, hstep, ih (j + 1) hfuel]
      rw [Nat.max_eq_right hlt, Nat.max_eq_right (Nat.le_of_lt hlt)]
    · have hc : Nat.clog 2 N ≤ j :=
        (Nat.le_pow_iff_clog_le one_lt_two).mp (Nat.le_of_not_lt hd)
      simp [scanGo, hd, Nat.max_eq_left hc]

lemma splitScan_eq_scanK {N : Nat} (b : ZMod N → Int) :
    splitScan N b = scanK N b (Nat.clog 2 N) := by
  have h : N ≤ 2 ^ (0 + (N + 1)) := by
    calc N ≤ 2 ^ N := Nat.le_of_lt (Nat.lt_two_pow N)
    _ ≤ 2 ^ (0 + (N + 1)) := Nat.pow_le_pow_right (by norm_num) (by omega)
  have := scanGo_state b (N + 1) 0 h
  simpa [splitScan, splitScanPair, scanK] using this

/-! ### Characterisation of the alltoallv loop -/

lemma a2aGo_count {N : Nat} (sb : ZMod N → Nat → Int)
    (sc sd rc rd : ZMod N → ZMod N → Nat) (ranks : Int) :
    ∀ (fuel : Nat) (dist : Int) (st : ZMod N → A2AProc N),
      ranks ≤ dist + fuel →
      (a2aGo N sb sc sd rc rd ranks fuel dist st).2 = (ranks - dist).toNat := by
  intro fuel
  induction fuel with
  | zero =>
    intro dist st h
    simp only [a2aGo]
    omega
  | succ fuel ih =>
    intro dist st h
    by_cases hd : dist < ranks
    · have := ih (dist + 1) (a2aStep N sb sc sd rc rd st) (by omega)
      simp only [a2aGo, if_pos hd, this]
      omega
    · simp only [a2aGo, if_neg hd]
      omega

/-! ### Window counting lemmas -/

lemma sameBinBelow_nonneg (N : Nat) (b : ZMod N → Int) (v : Int) :
    ∀ m, 0 ≤ sameBinBelow N b v m := by
  intro m
  induction m with
  | zero => simp [sameBinBelow]
  | succ m ih =>
    simp only [sameBinBelow]
    split <;> omega

lemma sameBinBelow_mono (N : Nat) (b : ZMod N → Int) (v : Int) :
    ∀ {m m' : Nat}, m ≤ m' → sameBinBelow N b v m ≤ sameBinBelow N b v m' := by
  intro m m' h
  induction m' with
  | zero => simp_all
  | succ k ih =>
    rcases Nat.lt_or_ge m (k + 1) with hlt | hge
    · have := ih (by omega)
      simp only [sameBinBelow]
      split <;> omega
    · have : m = k + 1 := by omega
      simp [this]

lemma sameBinBelow_succ_of_mem (N : Nat) (b : ZMod N → Int) (v : Int)
    (m : Nat) (h : b ((m : Nat) : ZMod N) = v) :
    sameBinBelow N b v (m + 1) = sameBinBelow N b v m + 1 := by
  simp [sameBinBelow, h]

lemma cntWinL_add (N : Nat) (b : ZMod N → Int) (v : Int) (hi m : Nat) :
    ∀ n, cntWinL N b v hi (m + n) =
      cntWinL N b v hi m +
        (if m ≤ hi then cntWinL N b v (hi - m) n else 0) := by
  intro n
  induction n with
  | zero => simp [cntWinL]
  | succ n ih =>
    have hmn : m + (n + 1) = (m + n) + 1 := by omega
    rw [hmn]
    simp only [cntWinL, ih]
    by_cases hm : m ≤ hi
    · have harg : hi - (m + n) = hi - m - n := by omega
      by_cases hn : n ≤ hi - m
      · have : m + n ≤ hi := by omega
        simp [hm, hn, this, harg]
        ring
      · have : ¬ (m + n ≤ hi) := by omega
        simp [hm, hn, this]
    · have : ¬ (m + n ≤ hi) := by omega
      simp [hm, this]

lemma cntWinL_eq (N : Nat) (b : ZMod N → Int) (v : Int) (hi : Nat) :
    ∀ len, cntWinL N b v hi len =
      sameBinBelow N b v (hi + 1) - sameBinBelow N b v (hi + 1 - len) := by
  intro len
  induction len with
  | zero => simp [cntWinL]
  | succ len ih =>
    simp only [cntWinL, ih]
    by_cases hl : len ≤ hi
    · have h1 : hi + 1 - len = (hi - len) + 1 := by omega
      have h2 : hi + 1 - (len + 1) = hi - len := by omega
      rw [h1, h2]
      simp only [sameBinBelow]
      by_cases hb : b (((hi - len : Nat)) : ZMod N) = v
      · simp [hl, hb]; ring
      · simp [hl, hb]; ring
    · have h1 : hi + 1 - len = 0 := by omega
      have h2 : hi + 1 - (len + 1) = 0 := by omega
      simp [h1, h2, hl]

lemma cntWinR_add (N : Nat) (b : ZMod N → Int) (v : Int) (lo m : Nat) :
    ∀ n, cntWinR N b v lo (m + n) =
      cntWinR N b v lo m +
        (if lo + m < N then cntWinR N b v (lo + m) n else 0) := by
  intro n
  induction n with
  | zero => simp [cntWinR]
  | succ n ih =>
    have hmn : m + (n + 1) = (m + n) + 1 := by omega
    rw [hmn]
    simp only [cntWinR, ih]
    have harg : lo + (m + n) = (lo + m) + n := by omega
    by_cases hm : lo + m < N
    · by_cases hn : (lo + m) + n < N
      · have : lo + (m + n) < N := by omega
        simp [hm, hn, this, harg]
        ring
      · have : ¬ (lo + (m + n) < N) := by omega
        simp [hm, hn, this]
    · have : ¬ (lo + (m + n) < N) := by omega
      simp [hm, this]

lemma cntWinR_eq (N : Nat) (b : ZMod N → Int) (v : Int) (lo : Nat) :
    ∀ len, cntWinR N b v lo len =
      sameBinBelow N b v (min (lo + len) N) - sameBinBelow N b v (min lo N) := by
  intro len
  induction len with
  | zero => simp [cntWinR]
  | succ len ih =>
    simp only [cntWinR, ih]
    by_cases hl : lo + len < N
    · have h1 : min (lo + len) N = lo + len := by omega
      have h2 : min (lo + (len + 1)) N = (lo + len) + 1 := by omega
      rw [h1, h2]
      simp only [sameBinBelow]
      by_cases hb : b (((lo + len : Nat)) : ZMod N) = v
      · simp [hl, hb]; ring
      · simp [hl, hb]; ring
    · have h1 : min (lo + len) N = N := by omega
      have h2 : min (lo + (len + 1)) N = N := by omega
      simp [h1, h2, hl]

/-! ### First-hit window lemmas -/

lemma findWinL_append (N : Nat) (b : ZMod N → Int) (v : Int) (i : ZMod N)
    (m n : Nat) : ∀ lo, findWinL N b v i lo (m + n) =
      (findWinL N b v i lo m).orElse (fun _ => findWinL N b v i (lo + m) n) := by
  induction m with
  | zero => intro lo; simp [findWinL, Option.orElse]
  | succ m ih =>
    intro lo
    have hmn : (m + 1) + n = (m + n) + 1 := by omega
    rw [hmn]
    simp only [findWinL]
    by_cases hb : b (i - ((lo : Nat) : ZMod N)) = v
    · simp [hb, Option.orElse]
    · have hlo : lo + (m + 1) = (lo + 1) + m := by omega
      simp only [if_neg hb, ih (lo + 1), hlo]

lemma findWinR_append (N : Nat) (b : ZMod N → Int) (v : Int) (i : ZMod N)
    (m n : Nat) : ∀ lo, findWinR N b v i lo (m + n) =
      (findWinR N b v i lo m).orElse (fun _ => findWinR N b v i (lo + m) n) := by
  induction m with
  | zero => intro lo; simp [findWinR, Option.orElse]
  | succ m ih =>
    intro lo
    have hmn : (m + 1) + n = (m + n) + 1 := by omega
    rw [hmn]
    simp only [findWinR]
    by_cases hb : b (i + ((lo : Nat) : ZMod N)) = v
    · simp [hb, Option.orElse]
    · have hlo : lo + (m + 1) = (lo + 1) + m := by omega
      simp only [if_neg hb, ih (lo + 1), hlo]

lemma findWinL_shift (N : Nat) (b : ZMod N → Int) (v : Int) (i : ZMod N)
    (d : Nat) : ∀ len lo, findWinL N b v (i - ((d : Nat) : ZMod N)) lo len =
      findWinL N b v i (d + lo) len := by
  intro len
  induction len with
  | zero => intro lo; simp [findWinL]
  | succ len ih =>
    intro lo
    have harg : i - ((d : Nat) : ZMod N) - ((lo : Nat) : ZMod N) =
        i - (((d + lo : Nat)) : ZMod N) := by
      push_cast
      ring
    simp only [findWinL, harg]
    have hlo : d + (lo + 1) = (d + lo) + 1 := by omega
    rw [ih (lo + 1), hlo]

lemma findWinR_shift (N : Nat) (b : ZMod N → Int) (v : Int) (i : ZMod N)
    (d : Nat) : ∀ len lo, findWinR N b v (i + ((d : Nat) : ZMod N)) lo len =
      findWinR N b v i (d + lo) len := by
  intro len
  induction len with
  | zero => intro lo; simp [findWinR]
  | succ len ih =>
    intro lo
    have harg : i + ((d : Nat) : ZMod N) + ((lo : Nat) : ZMod N) =
        i + (((d + lo : Nat)) : ZMod N) := by
      push_cast
      ring
    simp only [findWinR, harg]
    have hlo : d + (lo + 1) = (d + lo) + 1 := by omega
    rw [ih (lo + 1), hlo]

lemma findWinL_spec_some (N : Nat) (b : ZMod N → Int) (v : Int) (i : ZMod N) :
    ∀ len lo p, findWinL N b v i lo len = some p →
      ∃ t, lo ≤ t ∧ t < lo + len ∧ p = i - ((t : Nat) : ZMod N) ∧ b p = v ∧
        ∀ s, lo ≤ s → s < t → b (i - ((s : Nat) : ZMod N)) ≠ v := by
  intro len
  induction len with
  | zero => intro lo p h; simp [findWinL] at h
  | succ len ih =>
    intro lo p h
    simp only [findWinL] at h
    by_cases hb : b (i - ((lo : Nat) : ZMod N)) = v
    · rw [if_pos hb] at h
      refine ⟨lo, le_refl lo, by omega, by simp_all, by simp_all, ?_⟩
      intro s h1 h2
      omega
    · rw [if_neg hb] at h
      obtain ⟨t, ht1, ht2, ht3, ht4, ht5⟩ := ih (lo + 1) p h
      refine ⟨t, by omega, by omega, ht3, ht4, ?_⟩
      intro s h1 h2
      rcases Nat.eq_or_lt_of_le h1 with heq | hlt
      · rw [← heq]; exact hb
      · exact ht5 s hlt h2

lemma findWinL_spec_none (N : Nat) (b : ZMod N → Int) (v : Int) (i : ZMod N) :
    ∀ len lo, findWinL N b v i lo len = none →
      ∀ s, lo ≤ s → s < lo + len → b (i - ((s : Nat) : ZMod N)) ≠ v := by
  intro len
  induction len with
  | zero => intro lo _ s h1 h2; omega
  | succ len ih =>
    intro lo h s h1 h2
    simp only [findWinL] at h
    by_cases hb : b (i - ((lo : Nat) : ZMod N)) = v
    · simp [hb] at h
    · rw [if_neg hb] at h
      rcases Nat.eq_or_lt_of_le h1 with heq | hlt
      · rw [← heq]; exact hb
      · exact ih (lo + 1) h s hlt (by omega)

lemma findWinL_eq_some_of (N : Nat) (b : ZMod N → Int) (v : Int) (i : ZMod N) :
    ∀ len lo t, lo ≤ t → t < lo + len → b (i - ((t : Nat) : ZMod N)) = v →
      (∀ s, lo ≤ s → s < t → b (i - ((s : Nat) : ZMod N)) ≠ v) →
      findWinL N b v i lo len = some (i - ((t : Nat) : ZMod N)) := by
  intro len
  induction len with
  | zero => intro lo t h1 h2; omega
  | succ len ih =>
    intro lo t h1 h2 hv hmin
    simp only [findWinL]
    by_cases hb : b (i - ((lo : Nat) : ZMod N)) = v
    · have : t = lo := by
        by_contra hne
        exact hmin lo (le_refl lo) (by omega) hb
      simp [hb, this]
    · have hne : lo ≠ t := fun heq => hb (heq ▸ hv)
      rw [if_neg hb]
      exact ih (lo + 1) t (by omega) (by omega) hv
        (fun s hs1 hs2 => hmin s (by omega) hs2)

lemma findWinR_spec_some (N : Nat) (b : ZMod N → Int) (v : Int) (i : ZMod N) :
    ∀ len lo p, findWinR N b v i lo len = some p →
      ∃ t, lo ≤ t ∧ t < lo + len ∧ p = i + ((t : Nat) : ZMod N) ∧ b p = v ∧
        ∀ s, lo ≤ s → s < t → b (i + ((s : Nat) : ZMod N)) ≠ v := by
  intro len
  induction len with
  | zero => intro lo p h; simp [findWinR] at h
  | succ len ih =>
    intro lo p h
    simp only [findWinR] at h
    by_cases hb : b (i + ((lo : Nat) : ZMod N)) = v
    · rw [if_pos hb] at h
      refine ⟨lo, le_refl lo, by omega, by simp_all, by simp_all, ?_⟩
      intro s h1 h2
      omega
    · rw [if_neg hb] at h
      obtain ⟨t, ht1, ht2, ht3, ht4, ht5⟩ := ih (lo + 1) p h
      refine ⟨t, by omega, by omega, ht3, ht4, ?_⟩
      intro s h1 h2
      rcases Nat.eq_or_lt_of_le h1 with heq | hlt
      · rw [← heq]; exact hb
      · exact ht5 s hlt h2

lemma findWinR_spec_none (N : Nat) (b : ZMod N → Int) (v : Int) (i : ZMod N) :
    ∀ len lo, findWinR N b v i lo len = none →
      ∀ s, lo ≤ s → s < lo + len → b (i + ((s : Nat) : ZMod N)) ≠ v := by
  intro len
  induction len with
  | zero => intro lo _ s h1 h2; omega
  | succ len ih =>
    intro lo h s h1 h2
    simp only [findWinR] at h
    by_cases hb : b (i + ((lo : Nat) : ZMod N)) = v
    · simp [hb] at h
    · rw [if_neg hb] at h
      rcases Nat.eq_or_lt_of_le h1 with heq | hlt
      · rw [← heq]; exact hb
      · exact ih (lo + 1) h s hlt (by omega)

lemma findWinR_eq_some_of (N : Nat) (b : ZMod N → Int) (v : Int) (i : ZMod N) :
    ∀ len lo t, lo ≤ t → t < lo + len → b (i + ((t : Nat) : ZMod N)) = v →
      (∀ s, lo ≤ s → s < t → b (i + ((s : Nat) : ZMod N)) ≠ v) →
      findWinR N b v i lo len = some (i + ((t : Nat) : ZMod N)) := by
  intro len
  induction len with
  | zero => intro lo t h1 h2; omega
  | succ len ih =>
    intro lo t h1 h2 hv hmin
    simp only [findWinR]
    by_cases hb : b (i + ((lo : Nat) : ZMod N)) = v
    · have : t = lo := by
        by_contra hne
        exact hmin lo (le_refl lo) (by omega) hb
      simp [hb, this]
    · have hne : lo ≠ t := fun heq => hb (heq ▸ hv)
      rw [if_neg hb]
      exact ih (lo + 1) t (by omega) (by omega) hv
        (fun s hs1 hs2 => hmin s (by omega) hs2)

/-! ### ZMod value arithmetic helpers -/

lemma cast_val_self {N : Nat} (hN : 0 < N) (i : ZMod N) :
    ((i.val : Nat) : ZMod N) = i := by
  haveI : NeZero N := ⟨hN.ne'⟩
  rw [ZMod.natCast_val, ZMod.cast_id]

lemma val_sub_of_le {N : Nat} (hN : 0 < N) (i : ZMod N) (d : Nat)
    (hd : d ≤ i.val) : (i - ((d : Nat) : ZMod N)).val = i.val - d := by
  haveI : NeZero N := ⟨hN.ne'⟩
  have h1 : ((i.val - d : Nat) : ZMod N) = i - ((d : Nat) : ZMod N) := by
    rw [Nat.cast_sub hd, cast_val_self hN]
  rw [← h1, ZMod.val_cast_of_lt (by have := ZMod.val_lt i; omega)]

lemma val_add_of_lt {N : Nat} (hN : 0 < N) (i : ZMod N) (d : Nat)
    (hd : i.val + d < N) : (i + ((d : Nat) : ZMod N)).val = i.val + d := by
  haveI : NeZero N := ⟨hN.ne'⟩
  have h1 : ((i.val + d : Nat) : ZMod N) = i + ((d : Nat) : ZMod N) := by
    rw [Nat.cast_add, cast_val_self hN]
  rw [← h1, ZMod.val_cast_of_lt hd]

/-! ### The scan invariant

After k rounds (each round j running at hop distance 2 ^ j, all below N
while k stays at most ceil(log2 N)):
the neighbour pointers are 2 ^ k hops away;
the right-going count of bin c is the number of bin-c processes in the
window of 2 ^ k input positions ending at the own position, clipped at
the head (the wrap guard discards counts from beyond the head);
the left-going count is symmetric, clipped at the tail;
the right-going closest slot of bin c is the nearest bin-c process
within 2 ^ k hops to the left around the ring, and symmetrically;
my_left and my_right hold the nearest same-bin process within 2 ^ k - 1
hops strictly to the left and right around the ring. -/

lemma scanK_spec {N : Nat} (b : ZMod N → Int) (hN : 0 < N) :
    ∀ k, k ≤ Nat.clog 2 N → ∀ i : ZMod N,
      (scanK N b k i).lpos = i - ((2 ^ k : Nat) : ZMod N) ∧
      (scanK N b k i).rpos = i + ((2 ^ k : Nat) : ZMod N) ∧
      (∀ c : Nat,
        (scanK N b k i).cntR c = cntWinL N b (c : Int) i.val (2 ^ k) ∧
        (scanK N b k i).cntL c = cntWinR N b (c : Int) i.val (2 ^ k) ∧
        (scanK N b k i).cloR c = findWinL N b (c : Int) i 0 (2 ^ k) ∧
        (scanK N b k i).cloL c = findWinR N b (c : Int) i 0 (2 ^ k)) ∧
      (scanK N b k i).myL =
        (if 0 ≤ b i then findWinL N b (b i) i 1 (2 ^ k - 1) else none) ∧
      (scanK N b k i).myR =
        (if 0 ≤ b i then findWinR N b (b i) i 1 (2 ^ k - 1) else none) := by
  intro k
  induction k with
  | zero =>
    intro _ i
    haveI : NeZero N := ⟨hN.ne'⟩
    have hv : i.val < N := ZMod.val_lt i
    refine ⟨by simp [scanK, initState], by simp [scanK, initState], ?_, ?_, ?_⟩
    · intro c
      refine ⟨?_, ?_, ?_, ?_⟩
      · show (if b i = (c : Int) then (1 : Int) else 0) = _
        simp [cntWinL, cast_val_self hN]
      · show (if b i = (c : Int) then (1 : Int) else 0) = _
        simp [cntWinR, cast_val_self hN, hv]
      · show (if b i = (c : Int) then some i else none) = _
        simp only [pow_zero, findWinL, Nat.cast_zero, sub_zero]
      · show (if b i = (c : Int) then some i else none) = _
        simp only [pow_zero, findWinR, Nat.cast_zero, add_zero]
    · show none = _
      simp [findWinL]
    · show none = _
      simp [findWinR]
  | succ k ih =>
    intro hk i
    haveI : NeZero N := ⟨hN.ne'⟩
    have hk' : k ≤ Nat.clog 2 N := by omega
    have hlt : 2 ^ k < N := by
      by_contra hle
      have := (Nat.le_pow_iff_clog_le one_lt_two).mp (Nat.le_of_not_lt hle)
      omega
    have hdpos : 0 < 2 ^ k := Nat.pos_pow_of_pos k (by norm_num)
    have hpow : (2 : Nat) ^ (k + 1) = 2 ^ k + 2 ^ k := by ring
    have hcastpow : (((2 ^ (k + 1) : Nat)) : ZMod N) =
        ((2 ^ k : Nat) : ZMod N) + ((2 ^ k : Nat) : ZMod N) := by
      rw [hpow]; push_cast; ring
    obtain ⟨hlp, hrp, hcell, hmyL, hmyR⟩ := ih hk' i
    obtain ⟨hlp2, _, hcellL, _, _⟩ := ih hk' (i - ((2 ^ k : Nat) : ZMod N))
    obtain ⟨_, hrp2, hcellR, _, _⟩ := ih hk' (i + ((2 ^ k : Nat) : ZMod N))
    have hstep : scanK N b (k + 1) i = stepRound N b (2 ^ k) (scanK N b k) i := rfl
    refine ⟨?_, ?_, ?_, ?_, ?_⟩
    · rw [hstep]
      show (scanK N b k ((scanK N b k i).lpos)).lpos = _
      rw [hlp, hlp2, hcastpow]
      ring
    · rw [hstep]
      show (scanK N b k ((scanK N b k i).rpos)).rpos = _
      rw [hrp, hrp2, hcastpow]
      ring
    · intro c
      refine ⟨?_, ?_, ?_, ?_⟩
      · rw [hstep]
        show (if 2 ^ k ≤ i.val then
            (scanK N b k i).cntR c +
              (scanK N b k ((scanK N b k i).lpos)).cntR c
          else (scanK N b k i).cntR c) = _
        rw [hlp, (hcell c).1, (hcellL c).1, hpow,
          cntWinL_add N b (c : Int) i.val (2 ^ k) (2 ^ k)]
        by_cases hle : 2 ^ k ≤ i.val
        · rw [if_pos hle, if_pos hle, val_sub_of_le hN i (2 ^ k) hle]
        · rw [if_neg hle, if_neg hle]
          ring
      · rw [hstep]
        show (if i.val + 2 ^ k < N then
            (scanK N b k i).cntL c +
              (scanK N b k ((scanK N b k i).rpos)).cntL c
          else (scanK N b k i).cntL c) = _
        rw [hrp, (hcell c).2.1, (hcellR c).2.1, hpow,
          cntWinR_add N b (c : Int) i.val (2 ^ k) (2 ^ k)]
        by_cases hle : i.val + 2 ^ k < N
        · rw [if_pos hle, if_pos hle, val_add_of_lt hN i (2 ^ k) hle]
        · rw [if_neg hle, if_neg hle]
          ring
      · rw [hstep]
        show ((scanK N b k i).cloR c).orElse
            (fun _ => (scanK N b k ((scanK N b k i).lpos)).cloR c) = _
        rw [hlp, (hcell c).2.2.1, (hcellL c).2.2.1,
          findWinL_shift N b (c : Int) i (2 ^ k) (2 ^ k) 0, hpow,
          findWinL_append N b (c : Int) i (2 ^ k) (2 ^ k) 0]
        simp
      · rw [hstep]
        show ((scanK N b k i).cloL c).orElse
            (fun _ => (scanK N b k ((scanK N b k i).rpos)).cloL c) = _
        rw [hrp, (hcell c).2.2.2, (hcellR c).2.2.2,
          findWinR_shift N b (c : Int) i (2 ^ k) (2 ^ k) 0, hpow,
          findWinR_append N b (c : Int) i (2 ^ k) (2 ^ k) 0]
        simp
    · rw [hstep]
      show (if 0 ≤ b i then
          ((scanK N b k i).myL).orElse
            (fun _ => (scanK N b k ((scanK N b k i).lpos)).cloR (b i).toNat)
        else (scanK N b k i).myL) = _
      by_cases hbi : 0 ≤ b i
      · rw [if_pos hbi, if_pos hbi, hmyL, if_pos hbi, hlp,
          (hcellL (b i).toNat).2.2.1, Int.toNat_of_nonneg hbi,
          findWinL_shift N b (b i) i (2 ^ k) (2 ^ k) 0]
        have h1 : 2 ^ (k + 1) - 1 = (2 ^ k - 1) + 2 ^ k := by omega
        have h2 : 2 ^ k + 0 = 1 + (2 ^ k - 1) := by omega
        rw [h1, findWinL_append N b (b i) i (2 ^ k - 1) (2 ^ k) 1, h2]
      · rw [if_neg hbi, if_neg hbi, hmyL, if_neg hbi]
    · rw [hstep]
      show (if 0 ≤ b i then
          ((scanK N b k i).myR).orElse
            (fun _ => (scanK N b k ((scanK N b k i).rpos)).cloL (b i).toNat)
        else (scanK N b k i).myR) = _
      by_cases hbi : 0 ≤ b i
      · rw [if_pos hbi, if_pos hbi, hmyR, if_pos hbi, hrp,
          (hcellR (b i).toNat).2.2.2, Int.toNat_of_nonneg hbi,
          findWinR_shift N b (b i) i (2 ^ k) (2 ^ k) 0]
        have h1 : 2 ^ (k + 1) - 1 = (2 ^ k - 1) + 2 ^ k := by omega
        have h2 : 2 ^ k + 0 = 1 + (2 ^ k - 1) := by omega
        rw [h1, findWinR_append N b (b i) i (2 ^ k - 1) (2 ^ k) 1, h2]
      · rw [if_neg hbi, if_neg hbi, hmyR, if_neg hbi]

/-! ### Output characterisation of the bin split -/

lemma sameBinBelow_strict {N : Nat} (b : ZMod N → Int) (v : Int)
    {m m' : Nat} (hm : m < m') (hmem : b ((m : Nat) : ZMod N) = v) :
    sameBinBelow N b v m + 1 ≤ sameBinBelow N b v m' := by
  have h1 : sameBinBelow N b v (m + 1) = sameBinBelow N b v m + 1 :=
    sameBinBelow_succ_of_mem N b v m hmem
  have h2 := sameBinBelow_mono N b v (show m + 1 ≤ m' by omega)
  omega

lemma split_bin_out_spec {N : Nat} (b : ZMod N → Int) (tr : ZMod N → Int)
    (hN : 0 < N) (i : ZMod N) (hi : 0 ≤ b i) :
    lwgrp_ring_split_bin N b tr i =
      { comm_rank := some (tr i)
        comm_left := Option.map tr
          (if N = 1 then some i
           else findWinL N b (b i) i 1 (2 ^ Nat.clog 2 N - 1))
        comm_right := Option.map tr
          (if N = 1 then some i
           else findWinR N b (b i) i 1 (2 ^ Nat.clog 2 N - 1))
        group_rank := sameBinBelow N b (b i) i.val
        group_size := sameBinBelow N b (b i) N } := by
  haveI : NeZero N := ⟨hN.ne'⟩
  obtain ⟨_, _, hcell, hmyL, hmyR⟩ := scanK_spec b hN (Nat.clog 2 N) (le_refl _) i
  have hD : N ≤ 2 ^ Nat.clog 2 N := Nat.le_pow_clog one_lt_two N
  have hvi : i.val < N := ZMod.val_lt i
  have hbin : (((b i).toNat : Nat) : Int) = b i := Int.toNat_of_nonneg hi
  have hmem : b ((i.val : Nat) : ZMod N) = b i := by rw [cast_val_self hN]
  have hcntR : (scanK N b (Nat.clog 2 N) i).cntR (b i).toNat =
      sameBinBelow N b (b i) i.val + 1 := by
    rw [(hcell (b i).toNat).1, hbin, cntWinL_eq]
    have h0 : i.val + 1 - 2 ^ Nat.clog 2 N = 0 := by omega
    rw [h0, sameBinBelow_succ_of_mem N b (b i) i.val hmem]
    show sameBinBelow N b (b i) i.val + 1 - sameBinBelow N b (b i) 0 = _
    simp [sameBinBelow]
  have hcntL : (scanK N b (Nat.clog 2 N) i).cntL (b i).toNat =
      sameBinBelow N b (b i) N - sameBinBelow N b (b i) i.val := by
    rw [(hcell (b i).toNat).2.1, hbin, cntWinR_eq]
    have h1 : min (i.val + 2 ^ Nat.clog 2 N) N = N := by omega
    have h2 : min i.val N = i.val := by omega
    rw [h1, h2]
  have hout : lwgrp_ring_split_bin N b tr i =
      { comm_rank := some (tr i)
        comm_left := Option.map tr
          (if N = 1 then some i else (scanK N b (Nat.clog 2 N) i).myL)
        comm_right := Option.map tr
          (if N = 1 then some i else (scanK N b (Nat.clog 2 N) i).myR)
        group_rank := (scanK N b (Nat.clog 2 N) i).cntR (b i).toNat - 1
        group_size := (scanK N b (Nat.clog 2 N) i).cntR (b i).toNat - 1 +
          ((scanK N b (Nat.clog 2 N) i).cntL (b i).toNat - 1) + 1 } := by
    simp only [lwgrp_ring_split_bin, splitScan_eq_scanK]
    rw [if_pos hi]
  rw [hout, hcntR, hcntL, hmyL, hmyR, if_pos hi, if_pos hi]
  simp only [LwgrpRing.mk.injEq]
  refine ⟨trivial, trivial, trivial, by ring, by ring⟩

/-- Claim C1: for any input ring of size N and any assignment of bins in
the interval from -1 below num_bins, every process with a non-negative
bin obtains an output descriptor whose size is the number of processes
declaring the same bin and whose rank is the number of same-bin
processes strictly to its left in the input ring; the ranks lie in the
interval from 0 below the size and respect the input order, so they are
the order-preserving enumeration of the same-bin processes. -/
theorem split_bin_completeness {N : Nat} (numBins : Int) (b : ZMod N → Int)
    (tr : ZMod N → Int) (hN : 0 < N)
    (hb : ∀ j, -1 ≤ b j ∧ b j < numBins) (i : ZMod N) (hi : 0 ≤ b i) :
    (lwgrp_ring_split_bin N b tr i).group_size = sameBinBelow N b (b i) N ∧
    (lwgrp_ring_split_bin N b tr i).group_rank = sameBinBelow N b (b i) i.val ∧
    (0 ≤ (lwgrp_ring_split_bin N b tr i).group_rank ∧
      (lwgrp_ring_split_bin N b tr i).group_rank <
        (lwgrp_ring_split_bin N b tr i).group_size) ∧
    (∀ j : ZMod N, b j = b i → i.val < j.val →
      (lwgrp_ring_split_bin N b tr i).group_rank <
        (lwgrp_ring_split_bin N b tr j).group_rank) := by
  haveI : NeZero N := ⟨hN.ne'⟩
  have hvi : i.val < N := ZMod.val_lt i
  have hmem : b ((i.val : Nat) : ZMod N) = b i := by rw [cast_val_self hN]
  rw [split_bin_out_spec b tr hN i hi]
  refine ⟨rfl, rfl, ⟨sameBinBelow_nonneg N b (b i) i.val, ?_⟩, ?_⟩
  · show sameBinBelow N b (b i) i.val < sameBinBelow N b (b i) N
    have := sameBinBelow_strict b (b i) hvi hmem
    omega
  · intro j hj hij
    have hj0 : 0 ≤ b j := by rw [hj]; exact hi
    rw [split_bin_out_spec b tr hN j hj0]
    show sameBinBelow N b (b i) i.val < sameBinBelow N b (b j) j.val
    rw [hj]
    have := sameBinBelow_strict b (b i) hij hmem
    omega

/-- Example input for the witnesses: the ring of size 4 with transport
ranks 10, 11, 12, 13 and bins 0, 1, 0, 1 (scenario S2 of the spec). -/
def exB : ZMod 4 → Int := fun j => if j = 0 ∨ j = 2 then 0 else 1

/-- Transport ranks of the example ring. -/
def exTr : ZMod 4 → Int := fun j => 10 + (j.val : Int)

/-- Witness for claim C1 at the concrete scenario S2 input. -/
theorem split_bin_completeness_witness :
    (lwgrp_ring_split_bin 4 exB exTr 0).group_size = sameBinBelow 4 exB (exB 0) 4 ∧
    (lwgrp_ring_split_bin 4 exB exTr 0).group_rank = sameBinBelow 4 exB (exB 0) (0 : ZMod 4).val ∧
    (0 ≤ (lwgrp_ring_split_bin 4 exB exTr 0).group_rank ∧
      (lwgrp_ring_split_bin 4 exB exTr 0).group_rank <
        (lwgrp_ring_split_bin 4 exB exTr 0).group_size) ∧
    (∀ j : ZMod 4, exB j = exB 0 → (0 : ZMod 4).val < j.val →
      (lwgrp_ring_split_bin 4 exB exTr 0).group_rank <
        (lwgrp_ring_split_bin 4 exB exTr j).group_rank) :=
  split_bin_completeness 2 exB exTr (by norm_num) (by decide) 0 (by decide)

lemma add_cast_eq {N : Nat} (hN : 0 < N) (i : ZMod N) (t : Nat) :
    i + ((t : Nat) : ZMod N) = (((i.val + t : Nat)) : ZMod N) := by
  conv_lhs => rw [← cast_val_self hN i]
  rw [← Nat.cast_add]

lemma sub_cast_eq_of_le {N : Nat} (hN : 0 < N) (i : ZMod N) (t : Nat)
    (h : t ≤ i.val) :
    i - ((t : Nat) : ZMod N) = (((i.val - t : Nat)) : ZMod N) := by
  conv_lhs => rw [← cast_val_self hN i]
  rw [← Nat.cast_sub h]

/-- Claim C3 counterexample: on the input ring of size 2 with both
processes in bin 0 and transport ranks 0 and 1, the process at output
chain rank 1, which is chain size - 1, carries a right neighbour equal
to the transport rank of the head instead of NONE, and the head at rank
0 carries the transport rank of the tail on its left; so NONE does not
appear at the ends of the output chain as the claim states. -/
theorem split_bin_tail_link_not_none :
    (lwgrp_ring_split_bin 2 (fun _ => 0) (fun j => (j.val : Int)) 1).group_rank =
      (lwgrp_ring_split_bin 2 (fun _ => 0) (fun j => (j.val : Int)) 1).group_size - 1 ∧
    (lwgrp_ring_split_bin 2 (fun _ => 0) (fun j => (j.val : Int)) 1).comm_right =
      some 0 ∧
    (lwgrp_ring_split_bin 2 (fun _ => 0) (fun j => (j.val : Int)) 0).group_rank = 0 ∧
    (lwgrp_ring_split_bin 2 (fun _ => 0) (fun j => (j.val : Int)) 0).comm_left =
      some 1 := by decide

/-- Claim C3 (amended): the output links of split_bin form a cycle
through the same-bin processes in input order rather than a
NONE-terminated chain.  For processes of the same non-negative bin: if
the output rank of j is one more than the output rank of i then the
right neighbour field of i holds the transport rank of j and the left
neighbour field of j holds the transport rank of i; if the output group
has at least two members then the rank-0 head and the tail at rank
size - 1 are linked to each other, the head left neighbour being the
tail transport rank and the tail right neighbour the head transport
rank, instead of NONE; and on a singleton input ring both neighbour
fields hold the own transport rank. -/
theorem split_bin_links {N : Nat} (b : ZMod N → Int) (tr : ZMod N → Int)
    (hN : 0 < N) :
    (∀ i j : ZMod N, 0 ≤ b i → b j = b i →
      (lwgrp_ring_split_bin N b tr j).group_rank =
        (lwgrp_ring_split_bin N b tr i).group_rank + 1 →
      (lwgrp_ring_split_bin N b tr i).comm_right = some (tr j) ∧
      (lwgrp_ring_split_bin N b tr j).comm_left = some (tr i)) ∧
    (∀ i j : ZMod N, 0 ≤ b i → b j = b i →
      2 ≤ (lwgrp_ring_split_bin N b tr i).group_size →
      (lwgrp_ring_split_bin N b tr i).group_rank = 0 →
      (lwgrp_ring_split_bin N b tr j).group_rank =
        (lwgrp_ring_split_bin N b tr i).group_size - 1 →
      (lwgrp_ring_split_bin N b tr i).comm_left = some (tr j) ∧
      (lwgrp_ring_split_bin N b tr j).comm_right = some (tr i)) ∧
    (N = 1 → ∀ i : ZMod N, 0 ≤ b i →
      (lwgrp_ring_split_bin N b tr i).comm_left = some (tr i) ∧
      (lwgrp_ring_split_bin N b tr i).comm_right = some (tr i)) := by
  haveI : NeZero N := ⟨hN.ne'⟩
  have hD : N ≤ 2 ^ Nat.clog 2 N := Nat.le_pow_clog one_lt_two N
  refine ⟨?_, ?_, ?_⟩
  · -- adjacent ranks are linked
    intro i j hi hj hrank
    have hj0 : 0 ≤ b j := by rw [hj]; exact hi
    have hSi := split_bin_out_spec b tr hN i hi
    have hSj := split_bin_out_spec b tr hN j hj0
    rw [hSi, hSj] at hrank
    have hr : sameBinBelow N b (b j) j.val = sameBinBelow N b (b i) i.val + 1 :=
      hrank
    rw [hj] at hr
    have hvi : i.val < N := ZMod.val_lt i
    have hvj : j.val < N := ZMod.val_lt j
    have hmemi : b ((i.val : Nat) : ZMod N) = b i := by rw [cast_val_self hN]
    have hij : i.val < j.val := by
      by_contra hle
      have := sameBinBelow_mono N b (b i) (show j.val ≤ i.val by omega)
      omega
    have hN1 : N ≠ 1 := by omega
    have hplus : i + (((j.val - i.val : Nat)) : ZMod N) = j := by
      rw [add_cast_eq hN, show i.val + (j.val - i.val) = j.val by omega,
        cast_val_self hN]
    have hminus : j - (((j.val - i.val : Nat)) : ZMod N) = i := by
      rw [sub_cast_eq_of_le hN j _ (by omega),
        show j.val - (j.val - i.val) = i.val by omega, cast_val_self hN]
    have hmin1 : ∀ s, 1 ≤ s → s < j.val - i.val →
        b (i + ((s : Nat) : ZMod N)) ≠ b i := by
      intro s hs1 hs2 hbad
      rw [add_cast_eq hN] at hbad
      have h1 := sameBinBelow_strict b (b i) (show i.val < i.val + s by omega) hmemi
      have h2 := sameBinBelow_strict b (b i)
        (show i.val + s < j.val by omega) hbad
      omega
    have hmin2 : ∀ s, 1 ≤ s → s < j.val - i.val →
        b (j - ((s : Nat) : ZMod N)) ≠ b i := by
      intro s hs1 hs2 hbad
      rw [sub_cast_eq_of_le hN j s (by omega)] at hbad
      have h1 := sameBinBelow_strict b (b i)
        (show i.val < j.val - s by omega) hmemi
      have h2 := sameBinBelow_strict b (b i)
        (show j.val - s < j.val by omega) hbad
      omega
    constructor
    · rw [hSi]
      show Option.map tr (if N = 1 then some i
        else findWinR N b (b i) i 1 (2 ^ Nat.clog 2 N - 1)) = some (tr j)
      rw [if_neg hN1, findWinR_eq_some_of N b (b i) i (2 ^ Nat.clog 2 N - 1) 1
        (j.val - i.val) (by omega) (by omega) (by rw [hplus, hj]) hmin1, hplus]
      rfl
    · rw [hSj]
      show Option.map tr (if N = 1 then some j
        else findWinL N b (b j) j 1 (2 ^ Nat.clog 2 N - 1)) = some (tr i)
      rw [if_neg hN1, hj, findWinL_eq_some_of N b (b i) j (2 ^ Nat.clog 2 N - 1) 1
        (j.val - i.val) (by omega) (by omega) (by rw [hminus]) hmin2, hminus]
      rfl
  · -- head and tail are linked to each other
    intro i j hi hj hsz h0 hmax
    have hj0 : 0 ≤ b j := by rw [hj]; exact hi
    have hSi := split_bin_out_spec b tr hN i hi
    have hSj := split_bin_out_spec b tr hN j hj0
    rw [hSi] at hsz h0
    rw [hSi, hSj] at hmax
    have hsz' : 2 ≤ sameBinBelow N b (b i) N := hsz
    have h0' : sameBinBelow N b (b i) i.val = 0 := h0
    have hmax' : sameBinBelow N b (b j) j.val = sameBinBelow N b (b i) N - 1 :=
      hmax
    rw [hj] at hmax'
    have hvi : i.val < N := ZMod.val_lt i
    have hvj : j.val < N := ZMod.val_lt j
    have hmemi : b ((i.val : Nat) : ZMod N) = b i := by rw [cast_val_self hN]
    have hmemj : b ((j.val : Nat) : ZMod N) = b i := by
      rw [cast_val_self hN]; exact hj
    have hij : i.val < j.val := by
      by_contra hle
      have := sameBinBelow_mono N b (b i) (show j.val ≤ i.val by omega)
      omega
    have hN1 : N ≠ 1 := by omega
    have hNz : ((N : Nat) : ZMod N) = 0 := ZMod.natCast_self N
    have ht1 : (1 : Nat) ≤ i.val + N - j.val := by omega
    have ht2 : i.val + N - j.val < 1 + (2 ^ Nat.clog 2 N - 1) := by omega
    have hback : j + (((i.val + N - j.val : Nat)) : ZMod N) = i := by
      rw [add_cast_eq hN, show j.val + (i.val + N - j.val) = i.val + N by omega,
        Nat.cast_add, cast_val_self hN, hNz, add_zero]
    have hfwd : i - (((i.val + N - j.val : Nat)) : ZMod N) = j :=
      (eq_sub_of_add_eq hback).symm
    have hminL : ∀ s, 1 ≤ s → s < i.val + N - j.val →
        b (i - ((s : Nat) : ZMod N)) ≠ b i := by
      intro s hs1 hs2 hbad
      by_cases hsle : s ≤ i.val
      · rw [sub_cast_eq_of_le hN i s hsle] at hbad
        have h1 := sameBinBelow_strict b (b i) (show i.val - s < i.val by omega) hbad
        have h2 := sameBinBelow_nonneg N b (b i) (i.val - s)
        omega
      · have h1 : (((i.val + N - s : Nat)) : ZMod N) + ((s : Nat) : ZMod N) = i := by
          rw [← Nat.cast_add, show i.val + N - s + s = i.val + N by omega,
            Nat.cast_add, cast_val_self hN, hNz, add_zero]
        rw [(eq_sub_of_add_eq h1).symm] at hbad
        have h1 := sameBinBelow_strict b (b i)
          (show j.val < i.val + N - s by omega) hmemj
        have h2 := sameBinBelow_strict b (b i)
          (show i.val + N - s < N by omega) hbad
        omega
    have hminR : ∀ s, 1 ≤ s → s < i.val + N - j.val →
        b (j + ((s : Nat) : ZMod N)) ≠ b i := by
      intro s hs1 hs2 hbad
      by_cases hslt : j.val + s < N
      · rw [add_cast_eq hN] at hbad
        have h1 := sameBinBelow_strict b (b i)
          (show j.val < j.val + s by omega) hmemj
        have h2 := sameBinBelow_strict b (b i) hslt hbad
        omega
      · obtain ⟨m, hm⟩ : ∃ m : Nat, j.val + s = m + N := ⟨j.val + s - N, by omega⟩
        rw [add_cast_eq hN, hm, Nat.cast_add, hNz, add_zero] at hbad
        have h1 := sameBinBelow_strict b (b i) (show m < i.val by omega) hbad
        have h2 := sameBinBelow_nonneg N b (b i) m
        omega
    constructor
    · rw [hSi]
      show Option.map tr (if N = 1 then some i
        else findWinL N b (b i) i 1 (2 ^ Nat.clog 2 N - 1)) = some (tr j)
      rw [if_neg hN1, findWinL_eq_some_of N b (b i) i (2 ^ Nat.clog 2 N - 1) 1
        (i.val + N - j.val) ht1 ht2 (by rw [hfwd, hj]) hminL, hfwd]
      rfl
    · rw [hSj]
      show Option.map tr (if N = 1 then some j
        else findWinR N b (b j) j 1 (2 ^ Nat.clog 2 N - 1)) = some (tr i)
      rw [if_neg hN1, hj, findWinR_eq_some_of N b (b i) j (2 ^ Nat.clog 2 N - 1) 1
        (i.val + N - j.val) ht1 ht2 (by rw [hback]) hminR, hback]
      rfl
  · -- singleton ring: self links
    intro h1 i hi
    rw [split_bin_out_spec b tr hN i hi]
    constructor
    · show Option.map tr (if N = 1 then some i
        else findWinL N b (b i) i 1 (2 ^ Nat.clog 2 N - 1)) = some (tr i)
      rw [if_pos h1]
      rfl
    · show Option.map tr (if N = 1 then some i
        else findWinR N b (b i) i 1 (2 ^ Nat.clog 2 N - 1)) = some (tr i)
      rw [if_pos h1]
      rfl

/-- Witness for the amended claim C3 at the scenario S2 input: in bin 0
the member at rank 1 is position 2, linked after the member at rank 0 at
position 0, and the two members of the bin close into a cycle. -/
theorem split_bin_links_witness :
    ((lwgrp_ring_split_bin 4 exB exTr 0).comm_right = some (exTr 2) ∧
      (lwgrp_ring_split_bin 4 exB exTr 2).comm_left = some (exTr 0)) ∧
    ((lwgrp_ring_split_bin 4 exB exTr 0).comm_left = some (exTr 2) ∧
      (lwgrp_ring_split_bin 4 exB exTr 2).comm_right = some (exTr 0)) :=
  ⟨(split_bin_links exB exTr (by norm_num)).1 0 2 (by decide) (by decide)
      (by decide),
    (split_bin_links exB exTr (by norm_num)).2.1 0 2 (by decide) (by decide)
      (by decide) (by decide) (by decide)⟩

/-- Claim C5: the scan loop of split_bin starts at hop distance 1,
doubles it each round, and runs while it stays below the ring size, so
it executes exactly the base-two ceiling logarithm of max 1 N rounds;
in particular zero rounds for a ring of size 1. -/
theorem split_bin_round_count (N : Nat) (b : ZMod N → Int) :
    splitRounds N b = Nat.clog 2 (max 1 N) := by
  cases N with
  | zero =>
    show (scanGo 0 b (0 + 1) 1 (initState 0 b)).2 = Nat.clog 2 (max 1 0)
    simp [scanGo, Nat.clog_one_right]
  | succ n =>
    have hfuel : n + 1 ≤ 2 ^ (0 + (n + 1 + 1)) := by
      calc n + 1 ≤ 2 ^ (n + 1) := Nat.le_of_lt (Nat.lt_two_pow (n + 1))
      _ ≤ 2 ^ (0 + (n + 1 + 1)) := Nat.pow_le_pow_right (by norm_num) (by omega)
    have h := scanGo_count b (n + 1 + 1) 0 (initState (n + 1) b) hfuel
    have hmax : max 1 (n + 1) = n + 1 := by omega
    rw [hmax]
    simpa [splitRounds, splitScanPair] using h

/-- Witness for claim C5 on the example ring of size 4: two rounds. -/
theorem split_bin_round_count_witness :
    splitRounds 4 exB = Nat.clog 2 (max 1 4) :=
  split_bin_round_count 4 exB

/-- Claim C4: after each round k of the scan, the right-going count of
every bin equals the number of same-bin processes in the window of 2 ^ k
input positions ending at the own position and clipped at the head of
the chain, and symmetrically for the left-going count clipped at the
tail, so no count is added from beyond the ends; and the right-going
closest slot of bin c holds the nearest bin-c process within 2 ^ k hops
to the left around the ring, NONE when there is none in that window,
and symmetrically the left-going closest holds the nearest bin-c
process to the right. -/
theorem split_scan_closest_nearest {N : Nat} (b : ZMod N → Int) (hN : 0 < N)
    (k : Nat) (hk : k ≤ Nat.clog 2 N) (i : ZMod N) (c : Nat) :
    ((scanK N b k i).cntR c = cntWinL N b (c : Int) i.val (2 ^ k) ∧
      (scanK N b k i).cntL c = cntWinR N b (c : Int) i.val (2 ^ k)) ∧
    (∀ p, (scanK N b k i).cloR c = some p →
      ∃ t, t < 2 ^ k ∧ p = i - ((t : Nat) : ZMod N) ∧ b p = (c : Int) ∧
        ∀ s, s < t → b (i - ((s : Nat) : ZMod N)) ≠ (c : Int)) ∧
    ((scanK N b k i).cloR c = none →
      ∀ t, t < 2 ^ k → b (i - ((t : Nat) : ZMod N)) ≠ (c : Int)) ∧
    (∀ p, (scanK N b k i).cloL c = some p →
      ∃ t, t < 2 ^ k ∧ p = i + ((t : Nat) : ZMod N) ∧ b p = (c : Int) ∧
        ∀ s, s < t → b (i + ((s : Nat) : ZMod N)) ≠ (c : Int)) ∧
    ((scanK N b k i).cloL c = none →
      ∀ t, t < 2 ^ k → b (i + ((t : Nat) : ZMod N)) ≠ (c : Int)) := by
  obtain ⟨_, _, hcell, _, _⟩ := scanK_spec b hN k hk i
  obtain ⟨hcntR, hcntL, hcloR, hcloL⟩ := hcell c
  refine ⟨⟨hcntR, hcntL⟩, ?_, ?_, ?_, ?_⟩
  · intro p hp
    rw [hcloR] at hp
    obtain ⟨t, ht0, ht1, ht2, ht3, ht4⟩ := findWinL_spec_some N b (c : Int) i _ _ p hp
    exact ⟨t, by omega, ht2, ht3, fun s hs => ht4 s (by omega) hs⟩
  · intro hp t ht
    rw [hcloR] at hp
    exact findWinL_spec_none N b (c : Int) i _ _ hp t (by omega) (by omega)
  · intro p hp
    rw [hcloL] at hp
    obtain ⟨t, ht0, ht1, ht2, ht3, ht4⟩ := findWinR_spec_some N b (c : Int) i _ _ p hp
    exact ⟨t, by omega, ht2, ht3, fun s hs => ht4 s (by omega) hs⟩
  · intro hp t ht
    rw [hcloL] at hp
    exact findWinR_spec_none N b (c : Int) i _ _ hp t (by omega) (by omega)

lemma clog2_four : Nat.clog 2 4 = 2 := by
  have h1 : Nat.clog 2 4 ≤ 2 :=
    (Nat.le_pow_iff_clog_le one_lt_two).mp (by norm_num)
  have h2 : ¬ (Nat.clog 2 4 ≤ 1) := by
    intro h
    have := (Nat.le_pow_iff_clog_le one_lt_two).mpr h
    norm_num at this
  omega

/-- Witness for claim C4 on the example ring of size 4 after one round
at position 3 for bin 0. -/
theorem split_scan_closest_nearest_witness :
    (((scanK 4 exB 1 3).cntR 0 = cntWinL 4 exB ((0 : Nat) : Int) (3 : ZMod 4).val (2 ^ 1) ∧
      (scanK 4 exB 1 3).cntL 0 = cntWinR 4 exB ((0 : Nat) : Int) (3 : ZMod 4).val (2 ^ 1)) ∧
    (∀ p, (scanK 4 exB 1 3).cloR 0 = some p →
      ∃ t, t < 2 ^ 1 ∧ p = (3 : ZMod 4) - ((t : Nat) : ZMod 4) ∧ exB p = ((0 : Nat) : Int) ∧
        ∀ s, s < t → exB ((3 : ZMod 4) - ((s : Nat) : ZMod 4)) ≠ ((0 : Nat) : Int)) ∧
    ((scanK 4 exB 1 3).cloR 0 = none →
      ∀ t, t < 2 ^ 1 → exB ((3 : ZMod 4) - ((t : Nat) : ZMod 4)) ≠ ((0 : Nat) : Int)) ∧
    (∀ p, (scanK 4 exB 1 3).cloL 0 = some p →
      ∃ t, t < 2 ^ 1 ∧ p = (3 : ZMod 4) + ((t : Nat) : ZMod 4) ∧ exB p = ((0 : Nat) : Int) ∧
        ∀ s, s < t → exB ((3 : ZMod 4) + ((s : Nat) : ZMod 4)) ≠ ((0 : Nat) : Int)) ∧
    ((scanK 4 exB 1 3).cloL 0 = none →
      ∀ t, t < 2 ^ 1 → exB ((3 : ZMod 4) + ((t : Nat) : ZMod 4)) ≠ ((0 : Nat) : Int))) :=
  split_scan_closest_nearest exB (by norm_num) 1 (by rw [clog2_four]; norm_num) 3 0

/-- Claim C8: a process that declares a negative bin receives the null
ring: chain size 0 and both neighbour fields NONE, whatever the ring
size and the bins chosen by the other processes. -/
theorem split_bin_negative_null {N : Nat} (b : ZMod N → Int)
    (tr : ZMod N → Int) (i : ZMod N) (hi : b i < 0) :
    lwgrp_ring_split_bin N b tr i = lwgrp_ring_set_null ∧
    (lwgrp_ring_split_bin N b tr i).group_size = 0 ∧
    (lwgrp_ring_split_bin N b tr i).comm_left = none ∧
    (lwgrp_ring_split_bin N b tr i).comm_right = none := by
  have h : ¬ (0 ≤ b i) := by omega
  refine ⟨?_, ?_, ?_, ?_⟩ <;>
    simp [lwgrp_ring_split_bin, h, lwgrp_ring_set_null]

/-- Bin assignment of scenario S3: ring of size 5 with bins
2, 2, -1, 2, -1. -/
def exB5 : ZMod 5 → Int := fun j => if j = 0 ∨ j = 1 ∨ j = 3 then 2 else -1

/-- Witness for claim C8 at the opt-out position 2 of scenario S3. -/
theorem split_bin_negative_null_witness :
    lwgrp_ring_split_bin 5 exB5 (fun j => (j.val : Int)) 2 = lwgrp_ring_set_null ∧
    (lwgrp_ring_split_bin 5 exB5 (fun j => (j.val : Int)) 2).group_size = 0 ∧
    (lwgrp_ring_split_bin 5 exB5 (fun j => (j.val : Int)) 2).comm_left = none ∧
    (lwgrp_ring_split_bin 5 exB5 (fun j => (j.val : Int)) 2).comm_right = none :=
  split_bin_negative_null exB5 (fun j => (j.val : Int)) 2 (by decide)

lemma sameBinBelow_congr {N : Nat} (b b' : ZMod N → Int) (v : Int)
    (h : ∀ j, b j = v ↔ b' j = v) :
    ∀ m, sameBinBelow N b v m = sameBinBelow N b' v m := by
  intro m
  induction m with
  | zero => rfl
  | succ m ih =>
    simp only [sameBinBelow, ih]
    by_cases hb : b ((m : Nat) : ZMod N) = v
    · rw [if_pos hb, if_pos ((h _).mp hb)]
    · rw [if_neg hb, if_neg (fun hb' => hb ((h _).mpr hb'))]

lemma findWinL_congr {N : Nat} (b b' : ZMod N → Int) (v : Int) (i : ZMod N)
    (h : ∀ j, b j = v ↔ b' j = v) :
    ∀ len lo, findWinL N b v i lo len = findWinL N b' v i lo len := by
  intro len
  induction len with
  | zero => intro lo; rfl
  | succ len ih =>
    intro lo
    simp only [findWinL]
    by_cases hb : b (i - ((lo : Nat) : ZMod N)) = v
    · rw [if_pos hb, if_pos ((h _).mp hb)]
    · rw [if_neg hb, if_neg (fun hb' => hb ((h _).mpr hb')), ih (lo + 1)]

lemma findWinR_congr {N : Nat} (b b' : ZMod N → Int) (v : Int) (i : ZMod N)
    (h : ∀ j, b j = v ↔ b' j = v) :
    ∀ len lo, findWinR N b v i lo len = findWinR N b' v i lo len := by
  intro len
  induction len with
  | zero => intro lo; rfl
  | succ len ih =>
    intro lo
    simp only [findWinR]
    by_cases hb : b (i + ((lo : Nat) : ZMod N)) = v
    · rw [if_pos hb, if_pos ((h _).mp hb)]
    · rw [if_neg hb, if_neg (fun hb' => hb ((h _).mpr hb')), ih (lo + 1)]

/-- Claim C9: a process that opts out with a negative bin participates
in the scan with an all-neutral payload: every one of its cells is
seeded with count 0 and closest NONE, in both directions; and the
output of a process with a non-negative bin depends only on which
positions share its bin, so replacing the bins of all other-bin
processes, opt-outs included, never changes its output descriptor. -/
theorem split_bin_optout_frame {N : Nat} :
    (∀ (b : ZMod N → Int) (i : ZMod N), b i < 0 → ∀ c : Nat,
      (initState N b i).cntR c = 0 ∧ (initState N b i).cntL c = 0 ∧
      (initState N b i).cloR c = none ∧ (initState N b i).cloL c = none) ∧
    (∀ (b b' : ZMod N → Int) (tr : ZMod N → Int), 0 < N → ∀ i : ZMod N,
      0 ≤ b i → b' i = b i → (∀ j, b j = b i ↔ b' j = b i) →
      lwgrp_ring_split_bin N b tr i = lwgrp_ring_split_bin N b' tr i) := by
  constructor
  · intro b i hi c
    have hne : b i ≠ (c : Int) := by
      intro h
      have : (0 : Int) ≤ (c : Int) := Int.ofNat_nonneg c
      omega
    refine ⟨?_, ?_, ?_, ?_⟩ <;> simp [initState, hne]
  · intro b b' tr hN i hi hii h
    have hi' : 0 ≤ b' i := by rw [hii]; exact hi
    rw [split_bin_out_spec b tr hN i hi, split_bin_out_spec b' tr hN i hi', hii]
    rw [sameBinBelow_congr b b' (b i) h i.val, sameBinBelow_congr b b' (b i) h N,
      findWinL_congr b b' (b i) i h (2 ^ Nat.clog 2 N - 1) 1,
      findWinR_congr b b' (b i) i h (2 ^ Nat.clog 2 N - 1) 1]

/-- Bins of the scenario S3 ring with the opt-out processes recoloured
to the unused bin 7: same bin-2 membership as exB5. -/
def exB5' : ZMod 5 → Int := fun j => if j = 0 ∨ j = 1 ∨ j = 3 then 2 else 7

/-- Witness for claim C9: the opt-out process at position 4 of S3 seeds
neutral cells, and the output of the bin-2 process at position 1 does
not change when the opt-outs are recoloured. -/
theorem split_bin_optout_frame_witness :
    ((initState 5 exB5 4).cntR 2 = 0 ∧ (initState 5 exB5 4).cntL 2 = 0 ∧
      (initState 5 exB5 4).cloR 2 = none ∧ (initState 5 exB5 4).cloL 2 = none) ∧
    lwgrp_ring_split_bin 5 exB5 (fun j => (j.val : Int)) 1 =
      lwgrp_ring_split_bin 5 exB5' (fun j => (j.val : Int)) 1 :=
  ⟨(split_bin_optout_frame.1 exB5 4 (by decide) 2),
    (split_bin_optout_frame.2 exB5 exB5' (fun j => (j.val : Int)) (by norm_num) 1
      (by decide) (by decide) (by decide))⟩

/-- Claim C7 fails on the code: lwgrp_ring_split_bin returns
LWGRP_SUCCESS on its only exit path; the my_bin >= num_bins check at
line 46 and the allocation-failure check at line 57 contain only a
TODO: fail comment and report nothing, so calling with num_bins = 1 and
my_bin = 5, or with num_bins = 0, still yields the success result
rather than an invalid-argument error. -/
theorem split_bin_no_error_reported :
    lwgrp_ring_split_bin_ret 1 5 = LwgrpResult.success ∧
    lwgrp_ring_split_bin_ret 0 0 = LwgrpResult.success ∧
    LwgrpResult.success ≠ LwgrpResult.invalidArg ∧
    LwgrpResult.success ≠ LwgrpResult.outOfMemory := by
  refine ⟨rfl, rfl, by decide, by decide⟩

/-- Claim C6: alltoallv_linear on a group of size N performs exactly N
rounds: the loop increments dist by 1 per wait-all cycle, advancing src
and dst by the received address values, until dist reaches the group
size.  On a singleton ring src and dst start as the own position, and
the single round copies the own send slot into the own receive slot
through the same loop, with no special case. -/
theorem alltoallv_round_count :
    (∀ (N : Nat) (sb : ZMod N → Nat → Int) (sc sd rc rd : ZMod N → ZMod N → Nat)
      (st : ZMod N → A2AProc N),
      (a2aRun N sb sc sd rc rd (N : Int) st).2 = N) ∧
    (∀ (rb : ZMod 1 → Nat → Int) (p : ZMod 1),
      (a2aInit 1 rb p).src = p ∧ (a2aInit 1 rb p).dst = p) ∧
    ((a2aRun 1 (fun _ ofs => 42 + (ofs : Int)) (fun _ _ => 1) (fun _ _ => 0)
        (fun _ _ => 1) (fun _ _ => 0) 1 (a2aInit 1 (fun _ _ => -1))).2 = 1 ∧
      ((a2aRun 1 (fun _ ofs => 42 + (ofs : Int)) (fun _ _ => 1) (fun _ _ => 0)
        (fun _ _ => 1) (fun _ _ => 0) 1 (a2aInit 1 (fun _ _ => -1))).1 0).recvbuf 0
        = 42) := by
  refine ⟨?_, ?_, by decide⟩
  · intro N sb sc sd rc rd st
    have h := a2aGo_count sb sc sd rc rd (N : Int) ((N : Int).toNat + 1) 0 st
      (by omega)
    simpa using h
  · intro rb p
    exact ⟨Subsingleton.elim _ _, Subsingleton.elim _ _⟩

/-- Send buffers of the counterexample ring of size 3: process p holds
the value 100 p + ofs at element offset ofs. -/
def a2aExSb : ZMod 3 → Nat → Int := fun p ofs => 100 * (p.val : Int) + (ofs : Int)

/-- Claim C2 fails on the code: the address exchange at lines 230-234
posts the address messages to the CURRENT src and dst rather than to the
fixed ring neighbours, so each process learns the src of its src and the
partner offset doubles every round: 1, 2, 4, ... instead of advancing by
one.  On a ring of size 3 with unit counts and displacements equal to
the transport rank, process 0 receives from offset 1 twice and never
from itself: after the full three rounds the receive slot at
recvdispls[0] of process 0 still holds the initial value -1, while the
claim demands the element of its own send buffer at senddispls[0],
which is 0. -/
theorem alltoallv_missing_self_delivery :
    ((a2aRun 3 a2aExSb (fun _ _ => 1) (fun _ q => q.val) (fun _ _ => 1)
        (fun _ q => q.val) 3 (a2aInit 3 (fun _ _ => -1))).1 0).recvbuf 0 = -1 ∧
    a2aExSb 0 0 = 0 ∧ ((-1 : Int) ≠ 0) ∧
    (a2aRun 3 a2aExSb (fun _ _ => 1) (fun _ q => q.val) (fun _ _ => 1)
        (fun _ q => q.val) 3 (a2aInit 3 (fun _ _ => -1))).2 = 3 := by decide

/-- Claim C10: a call with a null group descriptor, group size 0, runs
the loop zero times: no round executes, the whole state with every
receive buffer is returned unchanged, and the result value is 0, the
success result. -/
theorem alltoallv_null_group_noop {N : Nat} (sb : ZMod N → Nat → Int)
    (sc sd rc rd : ZMod N → ZMod N → Nat) (g : LwgrpRing)
    (hg : g.group_size = 0) (st : ZMod N → A2AProc N) :
    a2aRun N sb sc sd rc rd g.group_size st = (st, 0) ∧
    (∀ (p : ZMod N) (ofs : Nat),
      ((a2aRun N sb sc sd rc rd g.group_size st).1 p).recvbuf ofs =
        (st p).recvbuf ofs) ∧
    lwgrp_ring_alltoallv_linear_ret = 0 := by
  rw [hg]
  have h : a2aRun N sb sc sd rc rd (0 : Int) st = (st, 0) := by
    show a2aGo N sb sc sd rc rd 0 ((0 : Int).toNat + 1) 0 st = (st, 0)
    norm_num [a2aGo]
  exact ⟨h, fun p ofs => by rw [h], rfl⟩

/-- Witness for claim C10 with the null descriptor on a transport
context of three processes. -/
theorem alltoallv_null_group_noop_witness :
    a2aRun 3 a2aExSb (fun _ _ => 1) (fun _ q => q.val) (fun _ _ => 1)
      (fun _ q => q.val) lwgrp_ring_set_null.group_size
      (a2aInit 3 (fun _ _ => 7)) = (a2aInit 3 (fun _ _ => 7), 0) ∧
    (∀ (p : ZMod 3) (ofs : Nat),
      ((a2aRun 3 a2aExSb (fun _ _ => 1) (fun _ q => q.val) (fun _ _ => 1)
        (fun _ q => q.val) lwgrp_ring_set_null.group_size
        (a2aInit 3 (fun _ _ => 7))).1 p).recvbuf ofs =
          (a2aInit 3 (fun _ _ => 7) p).recvbuf ofs) ∧
    lwgrp_ring_alltoallv_linear_ret = 0 :=
  alltoallv_null_group_noop a2aExSb (fun _ _ => 1) (fun _ q => q.val)
    (fun _ _ => 1) (fun _ q => q.val) lwgrp_ring_set_null rfl
    (a2aInit 3 (fun _ _ => 7))

end Lwgrp
